import Mathlib

/-!
Shallow embedding of the Caesar-cipher cryptanalysis core of the repository
(src/caesar_bruteforce.py and src/caesar_freq_decrypt.py), together with
theorems settling the specification claims about it.

Texts are modelled as lists of character codes (`List Nat`); shifts as
integers (`ℤ`, Python ints), with Python's `%` on a positive modulus modelled
by `Int.emod`; Python floats are modelled by exact rationals (`ℚ`), with the
`float('inf')` sentinel modelled as `none` in `Option ℚ`.
-/

/-- Python `ch.islower()`, restricted to the ASCII range the ciphers act on. -/
def isLower (c : Nat) : Bool := 97 ≤ c && c ≤ 122

/-- Python `ch.isupper()`, restricted to the ASCII range the ciphers act on. -/
def isUpper (c : Nat) : Bool := 65 ≤ c && c ≤ 90

/-- Python `ch.isalpha()`, restricted to the ASCII range the ciphers act on. -/
def isAlpha (c : Nat) : Bool := isLower c || isUpper c

/-- Python `ch.upper()` on a single ASCII character code. -/
def toUpper (c : Nat) : Nat := if isLower c then c - 32 else c

namespace bruteforce

/-- `string.ascii_lowercase` as character codes (src/caesar_bruteforce.py line 9). -/
def ALPHABET_LOWER : List Nat :=
  [97, 98, 99, 100, 101, 102, 103, 104, 105, 106, 107, 108, 109,
   110, 111, 112, 113, 114, 115, 116, 117, 118, 119, 120, 121, 122]

/-- `string.ascii_uppercase` as character codes (src/caesar_bruteforce.py line 10). -/
def ALPHABET_UPPER : List Nat :=
  [65, 66, 67, 68, 69, 70, 71, 72, 73, 74, 75, 76, 77,
   78, 79, 80, 81, 82, 83, 84, 85, 86, 87, 88, 89, 90]

/-- `shift_char` from src/caesar_bruteforce.py (lines 13-21): look the character
up in its alphabet, move the index forward by `shift` modulo 26, and read the
alphabet back at that index; non-letters are returned unchanged. -/
def shift_char (ch : Nat) (shift : ℤ) : Nat :=
  if isLower ch then
    let idx := ALPHABET_LOWER.indexOf ch
    ALPHABET_LOWER.getD (((idx : ℤ) + shift) % (26 : ℤ)).toNat 0
  else if isUpper ch then
    let idx := ALPHABET_UPPER.indexOf ch
    ALPHABET_UPPER.getD (((idx : ℤ) + shift) % (26 : ℤ)).toNat 0
  else ch

/-- `caesar_shift` from src/caesar_bruteforce.py (lines 23-25). -/
def caesar_shift (text : List Nat) (shift : ℤ) : List Nat :=
  text.map (fun ch => shift_char ch shift)

/-- `bruteforce_caesar` from src/caesar_bruteforce.py (lines 27-30): the
generator yielding `(shift, caesar_shift(ciphertext, shift))` for
`shift in range(26)`, materialised as a list. -/
def bruteforce_caesar (ciphertext : List Nat) : List (Nat × List Nat) :=
  (List.range 26).map (fun shift => (shift, caesar_shift ciphertext (shift : ℤ)))

end bruteforce

namespace freqdecrypt

/-- `ENGLISH_FREQ` from src/caesar_freq_decrypt.py (lines 17-23): expected
English letter frequencies (A-Z, by character code) as percentages. -/
def ENGLISH_FREQ (letter : Nat) : ℚ :=
  if letter = 65 then 8.167 else if letter = 66 then 1.492
  else if letter = 67 then 2.782 else if letter = 68 then 4.253
  else if letter = 69 then 12.702 else if letter = 70 then 2.228
  else if letter = 71 then 2.015 else if letter = 72 then 6.094
  else if letter = 73 then 6.966 else if letter = 74 then 0.153
  else if letter = 75 then 0.772 else if letter = 76 then 4.025
  else if letter = 77 then 2.406 else if letter = 78 then 6.749
  else if letter = 79 then 7.507 else if letter = 80 then 1.929
  else if letter = 81 then 0.095 else if letter = 82 then 5.987
  else if letter = 83 then 6.327 else if letter = 84 then 9.056
  else if letter = 85 then 2.758 else if letter = 86 then 0.978
  else if letter = 87 then 2.361 else if letter = 88 then 0.150
  else if letter = 89 then 1.974 else if letter = 90 then 0.074
  else 0

/-- `ALPHABET = string.ascii_uppercase` (src/caesar_freq_decrypt.py line 25). -/
def ALPHABET : List Nat :=
  [65, 66, 67, 68, 69, 70, 71, 72, 73, 74, 75, 76, 77,
   78, 79, 80, 81, 82, 83, 84, 85, 86, 87, 88, 89, 90]

/-- `shift_char` from src/caesar_freq_decrypt.py (lines 28-33): character
arithmetic `chr((ord(ch) - ord('a') + shift) % 26 + ord('a'))` and its
uppercase analogue; non-letters are returned unchanged. -/
def shift_char (ch : Nat) (shift : ℤ) : Nat :=
  if isLower ch then (((ch : ℤ) - 97 + shift) % (26 : ℤ) + 97).toNat
  else if isUpper ch then (((ch : ℤ) - 65 + shift) % (26 : ℤ) + 65).toNat
  else ch

/-- `caesar_shift` from src/caesar_freq_decrypt.py (lines 35-36). -/
def caesar_shift (text : List Nat) (shift : ℤ) : List Nat :=
  text.map (fun ch => shift_char ch shift)

/-- The list `[c.upper() for c in text if c.isalpha()]` built by `count_letters`
(src/caesar_freq_decrypt.py line 40). -/
def cleanedOf (text : List Nat) : List Nat :=
  (text.filter (fun c => isAlpha c)).map toUpper

/-- The keys of a `collections.Counter` built from a list, in first-encounter
order (Python dicts preserve insertion order); `seen` accumulates keys already
emitted. -/
def counterKeysAux : List Nat → List Nat → List Nat
  | [], _ => []
  | a :: l, seen =>
    if a ∈ seen then counterKeysAux l seen else a :: counterKeysAux l (a :: seen)

/-- Keys of `Counter(cleaned)` in first-encounter order. -/
def counterKeys (l : List Nat) : List Nat := counterKeysAux l []

/-- `count_letters` from src/caesar_freq_decrypt.py (lines 38-43): the counter
is modelled by its lookup function `counts.get(letter, 0)` (the multiplicity of
`letter` in the cleaned list); `total = sum(c.values())` is the sum of the
counter's values over its keys. -/
def count_letters (text : List Nat) : (Nat → Nat) × Nat :=
  (fun letter => (cleanedOf text).count letter,
   ((counterKeys (cleanedOf text)).map (fun k => (cleanedOf text).count k)).sum)

/-- `chi_squared_score` from src/caesar_freq_decrypt.py (lines 45-60).
Returns `none` for Python's `float('inf')` when the text has no letters;
otherwise the running `score` accumulated over `ALPHABET`, including the
source's `expected if expected > 0 else 1e-9` division guard. -/
def chi_squared_score (text : List Nat) : Option ℚ :=
  let counts := (count_letters text).1
  let total := (count_letters text).2
  if total = 0 then none
  else some (ALPHABET.foldl
    (fun score letter =>
      let observed : ℚ := counts letter
      let expected : ℚ := ENGLISH_FREQ letter * (total : ℚ) / 100
      let diff := observed - expected
      score + diff * diff / (if 0 < expected then expected else 1e-9)) 0)

/-- `most_common = [p[0] for p in counts.most_common()]`
(src/caesar_freq_decrypt.py line 74): counter keys stably sorted by count in
descending order (`Counter.most_common` sorts items by value, `reverse=True`,
with Python's stable sort keeping ties in insertion order). -/
def most_common (text : List Nat) : List Nat :=
  (counterKeys (cleanedOf text)).mergeSort
    (fun a b => (cleanedOf text).count b ≤ (cleanedOf text).count a)

/-- `common_targets = ['E','T','A','O','I','N','S','R','H','L']`
(src/caesar_freq_decrypt.py line 77), as character codes. -/
def common_targets : List Nat := [69, 84, 65, 79, 73, 78, 83, 82, 72, 76]

/-- One most-frequent-letter mapping candidate
`(cipher_most, target, shift, plaintext)` (src/caesar_freq_decrypt.py line 87). -/
abbrev MFCand : Type := Nat × Nat × ℤ × List Nat

/-- The inner `for target in common_targets` loop of `freq_based_candidates`
(src/caesar_freq_decrypt.py lines 81-88): skip pairs already in `mapped`,
otherwise compute `shift = (ord(target) - ord(cipher_most)) % 26`, append the
candidate, and add the pair to `mapped`. Returns the grown candidate list and
the grown `mapped` set (modelled as a list used only for membership). -/
def mfInner (ciphertext : List Nat) (cipher_most : Nat) :
    List Nat → List (Nat × Nat) → List MFCand → List MFCand × List (Nat × Nat)
  | [], mapped, acc => (acc, mapped)
  | target :: rest, mapped, acc =>
    if (cipher_most, target) ∈ mapped then mfInner ciphertext cipher_most rest mapped acc
    else
      let shift := ((target : ℤ) - (cipher_most : ℤ)) % (26 : ℤ)
      mfInner ciphertext cipher_most rest ((cipher_most, target) :: mapped)
        (acc ++ [(cipher_most, target, shift, caesar_shift ciphertext shift)])

/-- The outer `for cipher_most in most_common` loop of `freq_based_candidates`
(src/caesar_freq_decrypt.py lines 79-91): run the inner loop over all ten
targets, then `break` once `len(mf_candidates) >= 20`. -/
def mfOuter (ciphertext : List Nat) :
    List Nat → List (Nat × Nat) → List MFCand → List MFCand
  | [], _, acc => acc
  | cipher_most :: rest, mapped, acc =>
    let step := mfInner ciphertext cipher_most common_targets mapped acc
    if 20 ≤ step.1.length then step.1 else mfOuter ciphertext rest step.2 step.1

/-- The `most_freq_guesses` list built by `freq_based_candidates`
(src/caesar_freq_decrypt.py lines 70-91): empty when the ciphertext has no
letters, otherwise the capped double loop over the most frequent ciphertext
letters and the common English target letters. -/
def mf_candidates (ciphertext : List Nat) : List MFCand :=
  if (count_letters ciphertext).2 = 0 then []
  else mfOuter ciphertext (most_common ciphertext) [] []

/-- Python float comparison `x <= y` on scores, where `none` is `float('inf')`. -/
def scoreLE : Option ℚ → Option ℚ → Bool
  | none, none => true
  | none, some _ => false
  | some _, none => true
  | some a, some b => a ≤ b

/-- The unsorted `shift_scores` list of `freq_based_candidates`
(src/caesar_freq_decrypt.py lines 94-98): for each `s in range(26)`, the tuple
`(s, chi_squared_score(caesar_shift(ciphertext, s)), caesar_shift(ciphertext, s))`. -/
def shift_scores (ciphertext : List Nat) : List (Nat × Option ℚ × List Nat) :=
  (List.range 26).map (fun s =>
    (s, chi_squared_score (caesar_shift ciphertext (s : ℤ)),
     caesar_shift ciphertext (s : ℤ)))

/-- `shift_scores.sort(key=lambda x: x[1])` (src/caesar_freq_decrypt.py
line 99): Python's stable ascending sort on the score component, modelled by
the stable `List.mergeSort`. -/
def sorted_scores (ciphertext : List Nat) : List (Nat × Option ℚ × List Nat) :=
  (shift_scores ciphertext).mergeSort (fun a b => scoreLE a.2.1 b.2.1)

/-- The `chi_squared_ranking` component returned by `freq_based_candidates`
(src/caesar_freq_decrypt.py line 103): `shift_scores[:top_n]` after sorting. -/
def chi_squared_ranking (ciphertext : List Nat) (top_n : Nat) :
    List (Nat × Option ℚ × List Nat) :=
  (sorted_scores ciphertext).take top_n

/-- `freq_based_candidates` from src/caesar_freq_decrypt.py (lines 62-104):
the returned dict `{'most_freq_guesses': ..., 'chi_squared_ranking': ...}`
modelled as a pair. -/
def freq_based_candidates (ciphertext : List Nat) (top_n : Nat) :
    List MFCand × List (Nat × Option ℚ × List Nat) :=
  (mf_candidates ciphertext, chi_squared_ranking ciphertext top_n)

end freqdecrypt

/-- The chi-squared formula exactly as the specification words it: the sum over
the 26 uppercase letters of `(observed - expected)^2 / expected` with
`expected = referenceFrequency[letter] * total / 100`, with no division guard.
Stated separately from `chi_squared_score` so the code can be proved to refine
the spec's formula. -/
def chiSpecSum (text : List Nat) : ℚ :=
  (freqdecrypt.ALPHABET.map (fun letter =>
    (((freqdecrypt.count_letters text).1 letter : ℚ) -
        freqdecrypt.ENGLISH_FREQ letter * ((freqdecrypt.count_letters text).2 : ℚ) / 100) ^ 2 /
      (freqdecrypt.ENGLISH_FREQ letter * ((freqdecrypt.count_letters text).2 : ℚ) / 100))).sum

/-! ### Character-level lemmas about the two shift transforms -/

theorem shift_char_not_alpha (ch : Nat) (s : ℤ) (h : isAlpha ch = false) :
    freqdecrypt.shift_char ch s = ch := by
  have hl : isLower ch = false := by
    simp only [isAlpha, Bool.or_eq_false_iff] at h
    exact h.1
  have hu : isUpper ch = false := by
    simp only [isAlpha, Bool.or_eq_false_iff] at h
    exact h.2
  simp [freqdecrypt.shift_char, hl, hu]

theorem shift_char_lower_eq (ch : Nat) (s : ℤ) (h : isLower ch = true) :
    freqdecrypt.shift_char ch s = (((ch : ℤ) - 97 + s) % (26 : ℤ) + 97).toNat := by
  simp [freqdecrypt.shift_char, h]

theorem shift_char_upper_eq (ch : Nat) (s : ℤ) (h : isUpper ch = true) :
    freqdecrypt.shift_char ch s = (((ch : ℤ) - 65 + s) % (26 : ℤ) + 65).toNat := by
  have hb : 65 ≤ ch ∧ ch ≤ 90 := by simpa [isUpper] using h
  have hl : isLower ch = false := by
    simp only [isLower, Bool.and_eq_false_iff, decide_eq_false_iff_not]
    omega
  simp [freqdecrypt.shift_char, hl, h]

theorem isLower_shift_char (ch : Nat) (s : ℤ) (h : isLower ch = true) :
    isLower (freqdecrypt.shift_char ch s) = true := by
  rw [shift_char_lower_eq ch s h]
  simp only [isLower, Bool.and_eq_true, decide_eq_true_eq]
  omega

theorem isUpper_shift_char (ch : Nat) (s : ℤ) (h : isUpper ch = true) :
    isUpper (freqdecrypt.shift_char ch s) = true := by
  rw [shift_char_upper_eq ch s h]
  simp only [isUpper, Bool.and_eq_true, decide_eq_true_eq]
  omega

theorem shift_char_cancel (ch : Nat) (s t : ℤ) (h : (s + t) % (26 : ℤ) = 0) :
    freqdecrypt.shift_char (freqdecrypt.shift_char ch s) t = ch := by
  by_cases hl : isLower ch = true
  · have hb : 97 ≤ ch ∧ ch ≤ 122 := by simpa [isLower] using hl
    rw [shift_char_lower_eq ch s hl,
      shift_char_lower_eq _ t (by rw [← shift_char_lower_eq ch s hl]; exact isLower_shift_char ch s hl)]
    omega
  · have hl0 : isLower ch = false := by simpa using hl
    by_cases hu : isUpper ch = true
    · have hb : 65 ≤ ch ∧ ch ≤ 90 := by simpa [isUpper] using hu
      rw [shift_char_upper_eq ch s hu,
        shift_char_upper_eq _ t (by rw [← shift_char_upper_eq ch s hu]; exact isUpper_shift_char ch s hu)]
      omega
    · have hu0 : isUpper ch = false := by simpa using hu
      have ha : isAlpha ch = false := by simp [isAlpha, hl0, hu0]
      rw [shift_char_not_alpha ch s ha, shift_char_not_alpha ch t ha]

theorem shift_char_zero (ch : Nat) : freqdecrypt.shift_char ch 0 = ch := by
  by_cases hl : isLower ch = true
  · have hb : 97 ≤ ch ∧ ch ≤ 122 := by simpa [isLower] using hl
    rw [shift_char_lower_eq ch 0 hl]
    omega
  · have hl0 : isLower ch = false := by simpa using hl
    by_cases hu : isUpper ch = true
    · have hb : 65 ≤ ch ∧ ch ≤ 90 := by simpa [isUpper] using hu
      rw [shift_char_upper_eq ch 0 hu]
      omega
    · have hu0 : isUpper ch = false := by simpa using hu
      exact shift_char_not_alpha ch 0 (by simp [isAlpha, hl0, hu0])

theorem alpha_lower_getD : ∀ j : Nat, j < 26 → bruteforce.ALPHABET_LOWER.getD j 0 = 97 + j := by
  decide

theorem alpha_upper_getD : ∀ j : Nat, j < 26 → bruteforce.ALPHABET_UPPER.getD j 0 = 65 + j := by
  decide

theorem alpha_lower_indexOf (ch : Nat) (h1 : 97 ≤ ch) (h2 : ch ≤ 122) :
    bruteforce.ALPHABET_LOWER.indexOf ch = ch - 97 := by
  interval_cases ch <;> decide

theorem alpha_upper_indexOf (ch : Nat) (h1 : 65 ≤ ch) (h2 : ch ≤ 90) :
    bruteforce.ALPHABET_UPPER.indexOf ch = ch - 65 := by
  interval_cases ch <;> decide

theorem shift_char_eq (ch : Nat) (s : ℤ) :
    bruteforce.shift_char ch s = freqdecrypt.shift_char ch s := by
  by_cases hl : isLower ch = true
  · have hb : 97 ≤ ch ∧ ch ≤ 122 := by simpa [isLower] using hl
    simp only [bruteforce.shift_char, freqdecrypt.shift_char, hl, if_true]
    rw [alpha_lower_indexOf ch hb.1 hb.2]
    rw [alpha_lower_getD _ (by omega)]
    omega
  · have hl0 : isLower ch = false := by simpa using hl
    by_cases hu : isUpper ch = true
    · have hb : 65 ≤ ch ∧ ch ≤ 90 := by simpa [isUpper] using hu
      simp only [bruteforce.shift_char, freqdecrypt.shift_char, hl0, hu, if_true,
        Bool.false_eq_true, if_false]
      rw [alpha_upper_indexOf ch hb.1 hb.2]
      rw [alpha_upper_getD _ (by omega)]
      omega
    · have hu0 : isUpper ch = false := by simpa using hu
      simp [bruteforce.shift_char, freqdecrypt.shift_char, hl0, hu0]


/-! ### Text-level helper lemmas -/

theorem caesar_shift_length (text : List Nat) (s : ℤ) :
    (freqdecrypt.caesar_shift text s).length = text.length := by
  simp [freqdecrypt.caesar_shift]

theorem getD_map_of_lt (l : List Nat) (f : Nat → Nat) (i : Nat) (h : i < l.length) :
    (l.map f).getD i 0 = f (l.getD i 0) := by
  induction l generalizing i with
  | nil => simp at h
  | cons a l ih =>
    cases i with
    | zero => simp
    | succ j =>
      simp only [List.map_cons, List.getD_cons_succ]
      exact ih j (by simpa using h)

theorem caesar_shift_not_alpha_fixed (text : List Nat) (s : ℤ)
    (h : ∀ ch ∈ text, isAlpha ch = false) :
    freqdecrypt.caesar_shift text s = text := by
  unfold freqdecrypt.caesar_shift
  rw [List.map_congr_left (fun ch hc => shift_char_not_alpha ch s (h ch hc))]
  exact List.map_id text

/-! ### Claim C2: the brute-force enumerator -/

/-- C2: for every input string, including the empty string, `bruteforce_caesar`
produces exactly 26 (shift, plaintext) pairs with shift values 0..25 in
ascending order, no shift omitted or duplicated, and the pair for shift s has
plaintext equal to the text shifter applied to the input with shift s. -/
theorem bruteforce_caesar_enumerates_all_shifts (c : List Nat) :
    (bruteforce.bruteforce_caesar c).length = 26 ∧
    (bruteforce.bruteforce_caesar c).map Prod.fst = List.range 26 ∧
    ∀ p ∈ bruteforce.bruteforce_caesar c,
      p.2 = bruteforce.caesar_shift c (p.1 : ℤ) := by
  refine ⟨by simp [bruteforce.bruteforce_caesar], ?_, ?_⟩
  · simp [bruteforce.bruteforce_caesar, List.map_map, Function.comp_def]
  · intro p hp
    simp only [bruteforce.bruteforce_caesar, List.mem_map, List.mem_range] at hp
    obtain ⟨s, _, rfl⟩ := hp
    rfl

/-! ### Claim C3: round-trip of the text shifter -/

/-- C3: for every text c and every shift s in [0,25], shifting c by s and then
by (26 - s) mod 26 yields c again, and shifting by 0 returns the text
unchanged. -/
theorem caesar_shift_roundtrip (text : List Nat) (s : Nat) (h : s ≤ 25) :
    freqdecrypt.caesar_shift (freqdecrypt.caesar_shift text (s : ℤ))
        (((26 - s) % 26 : Nat) : ℤ) = text ∧
    freqdecrypt.caesar_shift text 0 = text := by
  constructor
  · unfold freqdecrypt.caesar_shift
    rw [List.map_map]
    have hcancel : ∀ ch ∈ text,
        freqdecrypt.shift_char (freqdecrypt.shift_char ch (s : ℤ))
          (((26 - s) % 26 : Nat) : ℤ) = ch := by
      intro ch _
      apply shift_char_cancel
      omega
    calc text.map ((fun ch => freqdecrypt.shift_char ch (((26 - s) % 26 : Nat) : ℤ)) ∘
          (fun ch => freqdecrypt.shift_char ch (s : ℤ)))
        = text.map id := List.map_congr_left (fun ch hc => hcancel ch hc)
      _ = text := List.map_id text
  · unfold freqdecrypt.caesar_shift
    rw [List.map_congr_left (fun ch _ => shift_char_zero ch)]
    exact List.map_id text

/-- Witness for C3 at the concrete text "Kh!" and shift 3. -/
theorem caesar_shift_roundtrip_witness :
    3 ≤ 25 ∧
    (freqdecrypt.caesar_shift (freqdecrypt.caesar_shift [75, 104, 33] (3 : ℤ))
        (((26 - 3) % 26 : Nat) : ℤ) = [75, 104, 33] ∧
     freqdecrypt.caesar_shift [75, 104, 33] 0 = [75, 104, 33]) :=
  ⟨by decide, caesar_shift_roundtrip [75, 104, 33] 3 (by decide)⟩

/-! ### Claim C4: shape preservation of the text shifter -/

/-- C4: for every text and shift, the output of the text shifter has the same
length as the input, non-letters appear unchanged at their positions, and
letters keep their case at their positions. -/
theorem caesar_shift_preserves_shape (text : List Nat) (s : ℤ) :
    (freqdecrypt.caesar_shift text s).length = text.length ∧
    ∀ i, i < text.length →
      (isAlpha (text.getD i 0) = false →
        (freqdecrypt.caesar_shift text s).getD i 0 = text.getD i 0) ∧
      (isLower (text.getD i 0) = true →
        isLower ((freqdecrypt.caesar_shift text s).getD i 0) = true) ∧
      (isUpper (text.getD i 0) = true →
        isUpper ((freqdecrypt.caesar_shift text s).getD i 0) = true) := by
  refine ⟨caesar_shift_length text s, ?_⟩
  intro i hi
  have hmap : (freqdecrypt.caesar_shift text s).getD i 0 =
      freqdecrypt.shift_char (text.getD i 0) s :=
    getD_map_of_lt text (fun ch => freqdecrypt.shift_char ch s) i hi
  refine ⟨fun ha => ?_, fun hl => ?_, fun hu => ?_⟩
  · rw [hmap]
    exact shift_char_not_alpha _ s ha
  · rw [hmap]
    exact isLower_shift_char _ s hl
  · rw [hmap]
    exact isUpper_shift_char _ s hu

/-- Witness for C4 at the concrete text "Ab!" with shift 1 and position 2. -/
theorem caesar_shift_preserves_shape_witness :
    2 < ([65, 98, 33] : List Nat).length ∧
    isAlpha (([65, 98, 33] : List Nat).getD 2 0) = false ∧
    (freqdecrypt.caesar_shift [65, 98, 33] 1).length = 3 ∧
    (freqdecrypt.caesar_shift [65, 98, 33] 1).getD 2 0 = 33 := by
  refine ⟨by decide, by decide, ?_, ?_⟩
  · have h := (caesar_shift_preserves_shape [65, 98, 33] 1).1
    simpa using h
  · have h := ((caesar_shift_preserves_shape [65, 98, 33] 1).2 2 (by decide)).1 (by decide)
    simpa using h

/-! ### Claim C5: shift normalization modulo 26 -/

/-- C5: for every character and every integer shift value (including negative
and out-of-range integers), both shift transforms return a result, and the
shift is normalized modulo 26 before indexing: shifting by s equals shifting by
s mod 26. -/
theorem shift_char_mod_normalization (ch : Nat) (s : ℤ) :
    freqdecrypt.shift_char ch s = freqdecrypt.shift_char ch (s % (26 : ℤ)) ∧
    bruteforce.shift_char ch s = bruteforce.shift_char ch (s % (26 : ℤ)) := by
  have hfreq : freqdecrypt.shift_char ch s = freqdecrypt.shift_char ch (s % (26 : ℤ)) := by
    by_cases hl : isLower ch = true
    · rw [shift_char_lower_eq ch s hl, shift_char_lower_eq ch (s % (26 : ℤ)) hl]
      omega
    · have hl0 : isLower ch = false := by simpa using hl
      by_cases hu : isUpper ch = true
      · rw [shift_char_upper_eq ch s hu, shift_char_upper_eq ch (s % (26 : ℤ)) hu]
        omega
      · have hu0 : isUpper ch = false := by simpa using hu
        have ha : isAlpha ch = false := by simp [isAlpha, hl0, hu0]
        rw [shift_char_not_alpha ch s ha, shift_char_not_alpha ch _ ha]
  exact ⟨hfreq, by rw [shift_char_eq, shift_char_eq]; exact hfreq⟩

/-! ### Claim C10: the two shift implementations agree -/

/-- C10: the alphabet-index-based shifter of src/caesar_bruteforce.py and the
character-arithmetic shifter of src/caesar_freq_decrypt.py return the same
result on every ASCII string for every integer shift. -/
theorem caesar_shift_implementations_agree (text : List Nat) (s : ℤ)
    (h : ∀ ch ∈ text, ch < 128) :
    bruteforce.caesar_shift text s = freqdecrypt.caesar_shift text s := by
  unfold bruteforce.caesar_shift freqdecrypt.caesar_shift
  exact List.map_congr_left (fun ch _ => shift_char_eq ch s)

/-- Witness for C10 at the concrete ASCII text "Hi!" and shift 3. -/
theorem caesar_shift_implementations_agree_witness :
    (∀ ch ∈ ([72, 105, 33] : List Nat), ch < 128) ∧
    bruteforce.caesar_shift [72, 105, 33] 3 = freqdecrypt.caesar_shift [72, 105, 33] 3 :=
  ⟨by decide, caesar_shift_implementations_agree [72, 105, 33] 3 (by decide)⟩

/-! ### Letter-counting helper lemmas -/

theorem counterKeysAux_mem (a : Nat) :
    ∀ (l seen : List Nat), a ∈ freqdecrypt.counterKeysAux l seen ↔ a ∈ l ∧ a ∉ seen := by
  intro l
  induction l with
  | nil => intro seen; simp [freqdecrypt.counterKeysAux]
  | cons b l ih =>
    intro seen
    by_cases hb : b ∈ seen
    · rw [freqdecrypt.counterKeysAux, if_pos hb, ih]
      constructor
      · rintro ⟨h1, h2⟩
        exact ⟨List.mem_cons_of_mem b h1, h2⟩
      · rintro ⟨h1, h2⟩
        rcases List.mem_cons.mp h1 with h | h
        · exact absurd (h ▸ hb) h2
        · exact ⟨h, h2⟩
    · rw [freqdecrypt.counterKeysAux, if_neg hb]
      by_cases hab : a = b
      · subst hab
        simp [hb]
      · simp only [List.mem_cons, hab, false_or, ih, List.mem_cons] <;> tauto

theorem counterKeysAux_nodup : ∀ (l seen : List Nat), (freqdecrypt.counterKeysAux l seen).Nodup := by
  intro l
  induction l with
  | nil => intro seen; simp [freqdecrypt.counterKeysAux]
  | cons b l ih =>
    intro seen
    by_cases hb : b ∈ seen
    · rw [freqdecrypt.counterKeysAux, if_pos hb]
      exact ih seen
    · rw [freqdecrypt.counterKeysAux, if_neg hb]
      refine List.Nodup.cons ?_ (ih (b :: seen))
      intro hmem
      exact ((counterKeysAux_mem b l (b :: seen)).mp hmem).2 (List.mem_cons_self b seen)

theorem total_eq_zero_iff (text : List Nat) :
    (freqdecrypt.count_letters text).2 = 0 ↔ freqdecrypt.cleanedOf text = [] := by
  constructor
  · intro h
    by_contra hne
    obtain ⟨a, l, he⟩ := List.exists_cons_of_ne_nil hne
    have hmem : a ∈ freqdecrypt.counterKeys (freqdecrypt.cleanedOf text) := by
      rw [freqdecrypt.counterKeys, counterKeysAux_mem, he]
      exact ⟨List.mem_cons_self a l, List.not_mem_nil a⟩
    have hcount : 0 < (freqdecrypt.cleanedOf text).count a := by
      rw [List.count_pos_iff_mem, he]
      exact List.mem_cons_self a l
    have hle : (freqdecrypt.cleanedOf text).count a ≤ (freqdecrypt.count_letters text).2 :=
      List.single_le_sum (fun x _ => Nat.zero_le x) _
        (List.mem_map_of_mem (fun k => (freqdecrypt.cleanedOf text).count k) hmem)
    omega
  · intro h
    simp [freqdecrypt.count_letters, h, freqdecrypt.counterKeys, freqdecrypt.counterKeysAux]

theorem cleaned_nil_of_no_alpha (text : List Nat) (h : ∀ ch ∈ text, isAlpha ch = false) :
    freqdecrypt.cleanedOf text = [] := by
  unfold freqdecrypt.cleanedOf
  rw [List.filter_eq_nil.mpr (by intro a ha; simp [h a ha])]
  rfl

/-! ### Claim C1: the chi-squared scorer matches the spec formula -/

theorem foldl_add_map (l : List Nat) (f : Nat → ℚ) :
    ∀ a : ℚ, l.foldl (fun s x => s + f x) a = a + (l.map f).sum := by
  induction l with
  | nil => intro a; simp
  | cons b l ih =>
    intro a
    simp only [List.foldl_cons, List.map_cons, List.sum_cons, ih, add_assoc]

theorem chi_score_eq_guarded_sum (text : List Nat)
    (h : (freqdecrypt.count_letters text).2 ≠ 0) :
    freqdecrypt.chi_squared_score text = some
      ((freqdecrypt.ALPHABET.map (fun letter =>
        (((freqdecrypt.count_letters text).1 letter : ℚ) -
            freqdecrypt.ENGLISH_FREQ letter * ((freqdecrypt.count_letters text).2 : ℚ) / 100) *
          (((freqdecrypt.count_letters text).1 letter : ℚ) -
            freqdecrypt.ENGLISH_FREQ letter * ((freqdecrypt.count_letters text).2 : ℚ) / 100) /
          (if 0 < freqdecrypt.ENGLISH_FREQ letter * ((freqdecrypt.count_letters text).2 : ℚ) / 100
           then freqdecrypt.ENGLISH_FREQ letter * ((freqdecrypt.count_letters text).2 : ℚ) / 100
           else 1e-9))).sum) := by
  simp only [freqdecrypt.chi_squared_score]
  rw [if_neg h, foldl_add_map, zero_add]

/-- C1: for every text whose total letter count is positive, the chi-squared
scorer returns exactly the sum over the 26 uppercase letters of
(observed - expected)^2 / expected with expected = frequency * total / 100,
and this result is finite (a `some` value) and nonnegative. -/
theorem chi_squared_score_eq_spec_sum (text : List Nat)
    (h : 0 < (freqdecrypt.count_letters text).2) :
    freqdecrypt.chi_squared_score text = some (chiSpecSum text) ∧ 0 ≤ chiSpecSum text := by
  have hfreq : ∀ L ∈ freqdecrypt.ALPHABET, 0 < freqdecrypt.ENGLISH_FREQ L := by
    intro L hL
    simp only [freqdecrypt.ALPHABET] at hL
    fin_cases hL <;> norm_num [freqdecrypt.ENGLISH_FREQ]
  have htot : (0 : ℚ) < ((freqdecrypt.count_letters text).2 : ℚ) := by exact_mod_cast h
  have hexp : ∀ L ∈ freqdecrypt.ALPHABET,
      0 < freqdecrypt.ENGLISH_FREQ L * ((freqdecrypt.count_letters text).2 : ℚ) / 100 := by
    intro L hL
    have hf := hfreq L hL
    positivity
  constructor
  · rw [chi_score_eq_guarded_sum text (by omega)]
    unfold chiSpecSum
    have hmap : ∀ L ∈ freqdecrypt.ALPHABET,
        (((freqdecrypt.count_letters text).1 L : ℚ) -
            freqdecrypt.ENGLISH_FREQ L * ((freqdecrypt.count_letters text).2 : ℚ) / 100) *
          (((freqdecrypt.count_letters text).1 L : ℚ) -
            freqdecrypt.ENGLISH_FREQ L * ((freqdecrypt.count_letters text).2 : ℚ) / 100) /
          (if 0 < freqdecrypt.ENGLISH_FREQ L * ((freqdecrypt.count_letters text).2 : ℚ) / 100
           then freqdecrypt.ENGLISH_FREQ L * ((freqdecrypt.count_letters text).2 : ℚ) / 100
           else 1e-9) =
        (((freqdecrypt.count_letters text).1 L : ℚ) -
            freqdecrypt.ENGLISH_FREQ L * ((freqdecrypt.count_letters text).2 : ℚ) / 100) ^ 2 /
          (freqdecrypt.ENGLISH_FREQ L * ((freqdecrypt.count_letters text).2 : ℚ) / 100) := by
      intro L hL
      rw [if_pos (hexp L hL)]
      ring
    rw [List.map_congr_left hmap]
  · unfold chiSpecSum
    apply List.sum_nonneg
    intro x hx
    obtain ⟨L, hL, rfl⟩ := List.mem_map.mp hx
    have hp := hexp L hL
    positivity

/-- Witness for C1 at the concrete single-letter text "A". -/
theorem chi_squared_score_eq_spec_sum_witness :
    0 < (freqdecrypt.count_letters [65]).2 ∧
    (freqdecrypt.chi_squared_score [65] = some (chiSpecSum [65]) ∧ 0 ≤ chiSpecSum [65]) :=
  ⟨by decide, chi_squared_score_eq_spec_sum [65] (by decide)⟩

/-! ### Claim C6: zero-letter input -/

/-- C6: for every input containing zero alphabetic letters, the scorer returns
the infinity sentinel (`none`), the most-frequent-letter heuristic yields an
empty list, and the chi-squared ranking still returns min(topN, 26)
infinity-scored entries instead of dropping them. -/
theorem zero_letter_input_behavior (c : List Nat) (top_n : Nat)
    (h : ∀ ch ∈ c, isAlpha ch = false) :
    freqdecrypt.chi_squared_score c = none ∧
    freqdecrypt.mf_candidates c = [] ∧
    (freqdecrypt.chi_squared_ranking c top_n).length = min top_n 26 ∧
    ∀ x ∈ freqdecrypt.chi_squared_ranking c top_n, x.2.1 = none := by
  have hclean : freqdecrypt.cleanedOf c = [] := cleaned_nil_of_no_alpha c h
  have htot : (freqdecrypt.count_letters c).2 = 0 := (total_eq_zero_iff c).mpr hclean
  have hscore : freqdecrypt.chi_squared_score c = none := by
    simp only [freqdecrypt.chi_squared_score]
    rw [if_pos htot]
  have hmf : freqdecrypt.mf_candidates c = [] := by
    unfold freqdecrypt.mf_candidates
    rw [if_pos htot]
  refine ⟨hscore, hmf, ?_, ?_⟩
  · simp only [freqdecrypt.chi_squared_ranking, List.length_take]
    congr 1
    simp [freqdecrypt.sorted_scores, freqdecrypt.shift_scores]
  · intro x hx
    have hx2 : x ∈ freqdecrypt.sorted_scores c :=
      (List.take_sublist top_n (freqdecrypt.sorted_scores c)).subset hx
    unfold freqdecrypt.sorted_scores at hx2
    rw [List.mem_mergeSort] at hx2
    simp only [freqdecrypt.shift_scores, List.mem_map, List.mem_range] at hx2
    obtain ⟨s, hs, rfl⟩ := hx2
    simp only
    rw [caesar_shift_not_alpha_fixed c (s : ℤ) h]
    exact hscore

/-- Witness for C6 at the concrete zero-letter input "1234!!" with topN = 5. -/
theorem zero_letter_input_behavior_witness :
    (∀ ch ∈ ([49, 50, 51, 52, 33, 33] : List Nat), isAlpha ch = false) ∧
    (freqdecrypt.chi_squared_score [49, 50, 51, 52, 33, 33] = none ∧
     freqdecrypt.mf_candidates [49, 50, 51, 52, 33, 33] = [] ∧
     (freqdecrypt.chi_squared_ranking [49, 50, 51, 52, 33, 33] 5).length = min 5 26 ∧
     ∀ x ∈ freqdecrypt.chi_squared_ranking [49, 50, 51, 52, 33, 33] 5, x.2.1 = none) :=
  ⟨by decide, zero_letter_input_behavior [49, 50, 51, 52, 33, 33] 5 (by decide)⟩

/-! ### Claim C7: the chi-squared ranking -/

theorem scoreLE_trans : ∀ x y z : Option ℚ, freqdecrypt.scoreLE x y = true →
    freqdecrypt.scoreLE y z = true → freqdecrypt.scoreLE x z = true
  | none, none, none, _, _ => rfl
  | none, none, some _, _, h2 => by simp [freqdecrypt.scoreLE] at h2
  | none, some _, _, h1, _ => by simp [freqdecrypt.scoreLE] at h1
  | some _, none, none, _, _ => rfl
  | some _, none, some _, _, h2 => by simp [freqdecrypt.scoreLE] at h2
  | some _, some _, none, _, _ => rfl
  | some a, some b, some d, h1, h2 => by
    simp only [freqdecrypt.scoreLE, decide_eq_true_eq] at h1 h2 ⊢
    exact le_trans h1 h2

theorem scoreLE_total : ∀ x y : Option ℚ,
    (freqdecrypt.scoreLE x y || freqdecrypt.scoreLE y x) = true
  | none, none => rfl
  | none, some _ => by simp [freqdecrypt.scoreLE]
  | some _, none => by simp [freqdecrypt.scoreLE]
  | some a, some b => by
    simp only [freqdecrypt.scoreLE, Bool.or_eq_true, decide_eq_true_eq]
    exact le_total a b

/-- C7: for every ciphertext and every topN, the chi-squared ranking is sorted
ascending by score, has length exactly min(topN, 26), and each entry's score is
the scorer applied to its plaintext, itself the text shifter applied at the
entry's shift (a value below 26). -/
theorem chi_squared_ranking_spec (c : List Nat) (top_n : Nat) :
    (freqdecrypt.chi_squared_ranking c top_n).length = min top_n 26 ∧
    (freqdecrypt.chi_squared_ranking c top_n).Pairwise
      (fun a b => freqdecrypt.scoreLE a.2.1 b.2.1 = true) ∧
    ∀ x ∈ freqdecrypt.chi_squared_ranking c top_n,
      x.1 < 26 ∧
      x.2.2 = freqdecrypt.caesar_shift c (x.1 : ℤ) ∧
      x.2.1 = freqdecrypt.chi_squared_score x.2.2 := by
  refine ⟨?_, ?_, ?_⟩
  · simp only [freqdecrypt.chi_squared_ranking, List.length_take]
    congr 1
    simp [freqdecrypt.sorted_scores, freqdecrypt.shift_scores]
  · have hsorted :=
      @List.sorted_mergeSort (Nat × Option ℚ × List Nat)
        (fun a b => freqdecrypt.scoreLE a.2.1 b.2.1)
        (fun a b d h1 h2 => scoreLE_trans _ _ _ h1 h2)
        (fun a b => scoreLE_total _ _)
        (freqdecrypt.shift_scores c)
    exact List.Pairwise.sublist (List.take_sublist _ _) hsorted
  · intro x hx
    have hx2 : x ∈ freqdecrypt.sorted_scores c :=
      (List.take_sublist top_n (freqdecrypt.sorted_scores c)).subset hx
    unfold freqdecrypt.sorted_scores at hx2
    rw [List.mem_mergeSort] at hx2
    simp only [freqdecrypt.shift_scores, List.mem_map, List.mem_range] at hx2
    obtain ⟨s, hs, rfl⟩ := hx2
    exact ⟨hs, rfl, rfl⟩

/-! ### Invariants of the most-frequent-letter candidate loops -/

theorem mfInner_length_fresh (c : List Nat) (cm : Nat) :
    ∀ (ts : List Nat) (mapped : List (Nat × Nat)) (acc : List freqdecrypt.MFCand),
      ts.Nodup → (∀ t ∈ ts, (cm, t) ∉ mapped) →
      (freqdecrypt.mfInner c cm ts mapped acc).1.length = acc.length + ts.length := by
  intro ts
  induction ts with
  | nil =>
    intro mapped acc _ _
    simp [freqdecrypt.mfInner]
  | cons t ts ih =>
    intro mapped acc hnd hfresh
    have hnotmem : (cm, t) ∉ mapped := hfresh t (List.mem_cons_self t ts)
    have htts : t ∉ ts := (List.nodup_cons.mp hnd).1
    simp only [freqdecrypt.mfInner]
    rw [if_neg hnotmem]
    rw [ih ((cm, t) :: mapped) _ (List.Nodup.of_cons hnd) ?_]
    · simp
      omega
    · intro u hu hmem
      rcases List.mem_cons.mp hmem with he | hm
      · have hut : u = t := by simpa using he
        exact htts (hut ▸ hu)
      · exact hfresh u (List.mem_cons_of_mem t hu) hm

theorem mfInner_mapped_subset (c : List Nat) (cm : Nat) :
    ∀ (ts : List Nat) (mapped : List (Nat × Nat)) (acc : List freqdecrypt.MFCand),
      ∀ p ∈ (freqdecrypt.mfInner c cm ts mapped acc).2, p ∈ mapped ∨ p.1 = cm := by
  intro ts
  induction ts with
  | nil =>
    intro mapped acc p hp
    simp only [freqdecrypt.mfInner] at hp
    exact Or.inl hp
  | cons t ts ih =>
    intro mapped acc p hp
    simp only [freqdecrypt.mfInner] at hp
    by_cases hmem : (cm, t) ∈ mapped
    · rw [if_pos hmem] at hp
      exact ih mapped acc p hp
    · rw [if_neg hmem] at hp
      rcases ih _ _ p hp with hin | heq
      · rcases List.mem_cons.mp hin with he | hm
        · right
          rw [he]
        · exact Or.inl hm
      · exact Or.inr heq

theorem mfInner_entries (c : List Nat) (cm : Nat) (P : freqdecrypt.MFCand → Prop)
    (hP : ∀ t : Nat, P (cm, t, ((t : ℤ) - (cm : ℤ)) % (26 : ℤ),
      freqdecrypt.caesar_shift c (((t : ℤ) - (cm : ℤ)) % (26 : ℤ)))) :
    ∀ (ts : List Nat) (mapped : List (Nat × Nat)) (acc : List freqdecrypt.MFCand),
      (∀ x ∈ acc, P x) → ∀ x ∈ (freqdecrypt.mfInner c cm ts mapped acc).1, P x := by
  intro ts
  induction ts with
  | nil =>
    intro mapped acc hacc x hx
    simp only [freqdecrypt.mfInner] at hx
    exact hacc x hx
  | cons t ts ih =>
    intro mapped acc hacc x hx
    simp only [freqdecrypt.mfInner] at hx
    by_cases hmem : (cm, t) ∈ mapped
    · rw [if_pos hmem] at hx
      exact ih mapped acc hacc x hx
    · rw [if_neg hmem] at hx
      refine ih _ _ ?_ x hx
      intro y hy
      rcases List.mem_append.mp hy with hy1 | hy2
      · exact hacc y hy1
      · rw [List.mem_singleton.mp hy2]
        exact hP t

theorem mfInner_pairs (c : List Nat) (cm : Nat) :
    ∀ (ts : List Nat) (mapped : List (Nat × Nat)) (acc : List freqdecrypt.MFCand),
      (∀ x ∈ acc, (x.1, x.2.1) ∈ mapped) →
      (acc.map (fun x => (x.1, x.2.1))).Nodup →
      (∀ x ∈ (freqdecrypt.mfInner c cm ts mapped acc).1,
        (x.1, x.2.1) ∈ (freqdecrypt.mfInner c cm ts mapped acc).2) ∧
      ((freqdecrypt.mfInner c cm ts mapped acc).1.map (fun x => (x.1, x.2.1))).Nodup := by
  intro ts
  induction ts with
  | nil =>
    intro mapped acc hsub hnd
    simp only [freqdecrypt.mfInner]
    exact ⟨hsub, hnd⟩
  | cons t ts ih =>
    intro mapped acc hsub hnd
    simp only [freqdecrypt.mfInner]
    by_cases hmem : (cm, t) ∈ mapped
    · rw [if_pos hmem]
      exact ih mapped acc hsub hnd
    · rw [if_neg hmem]
      apply ih
      · intro x hx
        rcases List.mem_append.mp hx with h1 | h2
        · exact List.mem_cons_of_mem _ (hsub x h1)
        · rw [List.mem_singleton.mp h2]
          exact List.mem_cons_self _ _
      · rw [List.map_append]
        refine List.Nodup.append hnd (List.nodup_singleton _) ?_
        intro a ha hb
        simp only [List.map_cons, List.map_nil, List.mem_singleton] at hb
        obtain ⟨x, hx, hxa⟩ := List.mem_map.mp ha
        apply hmem
        rw [← hb, ← hxa]
        exact hsub x hx

theorem mfOuter_length (c : List Nat) :
    ∀ (mc : List Nat) (mapped : List (Nat × Nat)) (acc : List freqdecrypt.MFCand),
      mc.Nodup → (∀ p ∈ mapped, p.1 ∉ mc) →
      acc.length % 10 = 0 → acc.length < 20 →
      (freqdecrypt.mfOuter c mc mapped acc).length % 10 = 0 ∧
      (freqdecrypt.mfOuter c mc mapped acc).length ≤ 20 := by
  intro mc
  induction mc with
  | nil =>
    intro mapped acc _ _ h10 h20
    simp only [freqdecrypt.mfOuter]
    omega
  | cons cm rest ih =>
    intro mapped acc hnd hmap h10 h20
    simp only [freqdecrypt.mfOuter]
    have hfresh : ∀ t ∈ freqdecrypt.common_targets, (cm, t) ∉ mapped := by
      intro t _ hmem
      exact hmap (cm, t) hmem (List.mem_cons_self cm rest)
    have hlen : (freqdecrypt.mfInner c cm freqdecrypt.common_targets mapped acc).1.length
        = acc.length + 10 := by
      rw [mfInner_length_fresh c cm freqdecrypt.common_targets mapped acc (by decide) hfresh]
      rfl
    by_cases hcap :
        20 ≤ (freqdecrypt.mfInner c cm freqdecrypt.common_targets mapped acc).1.length
    · rw [if_pos hcap]
      omega
    · rw [if_neg hcap]
      apply ih
      · exact List.Nodup.of_cons hnd
      · intro p hp hprest
        rcases mfInner_mapped_subset c cm freqdecrypt.common_targets mapped acc p hp with
          hin | heq
        · exact hmap p hin (List.mem_cons_of_mem cm hprest)
        · exact (List.nodup_cons.mp hnd).1 (heq ▸ hprest)
      · omega
      · omega

theorem mfOuter_entries (c : List Nat) (P : freqdecrypt.MFCand → Prop)
    (hP : ∀ cm t : Nat, P (cm, t, ((t : ℤ) - (cm : ℤ)) % (26 : ℤ),
      freqdecrypt.caesar_shift c (((t : ℤ) - (cm : ℤ)) % (26 : ℤ)))) :
    ∀ (mc : List Nat) (mapped : List (Nat × Nat)) (acc : List freqdecrypt.MFCand),
      (∀ x ∈ acc, P x) → ∀ x ∈ freqdecrypt.mfOuter c mc mapped acc, P x := by
  intro mc
  induction mc with
  | nil =>
    intro mapped acc hacc x hx
    simp only [freqdecrypt.mfOuter] at hx
    exact hacc x hx
  | cons cm rest ih =>
    intro mapped acc hacc x hx
    simp only [freqdecrypt.mfOuter] at hx
    by_cases hcap :
        20 ≤ (freqdecrypt.mfInner c cm freqdecrypt.common_targets mapped acc).1.length
    · rw [if_pos hcap] at hx
      exact mfInner_entries c cm P (hP cm) freqdecrypt.common_targets mapped acc hacc x hx
    · rw [if_neg hcap] at hx
      exact ih _ _ (mfInner_entries c cm P (hP cm) freqdecrypt.common_targets mapped acc hacc)
        x hx

theorem mfOuter_pairs_nodup (c : List Nat) :
    ∀ (mc : List Nat) (mapped : List (Nat × Nat)) (acc : List freqdecrypt.MFCand),
      (∀ x ∈ acc, (x.1, x.2.1) ∈ mapped) →
      (acc.map (fun x => (x.1, x.2.1))).Nodup →
      ((freqdecrypt.mfOuter c mc mapped acc).map (fun x => (x.1, x.2.1))).Nodup := by
  intro mc
  induction mc with
  | nil =>
    intro mapped acc _ hnd
    simpa only [freqdecrypt.mfOuter] using hnd
  | cons cm rest ih =>
    intro mapped acc hsub hnd
    simp only [freqdecrypt.mfOuter]
    obtain ⟨hsub2, hnd2⟩ := mfInner_pairs c cm freqdecrypt.common_targets mapped acc hsub hnd
    by_cases hcap :
        20 ≤ (freqdecrypt.mfInner c cm freqdecrypt.common_targets mapped acc).1.length
    · rw [if_pos hcap]
      exact hnd2
    · rw [if_neg hcap]
      exact ih _ _ hsub2 hnd2

theorem most_common_nodup (c : List Nat) : (freqdecrypt.most_common c).Nodup := by
  unfold freqdecrypt.most_common
  exact (List.mergeSort_perm _ _).nodup_iff.mpr (counterKeysAux_nodup _ [])

theorem mf_candidates_len_fact (c : List Nat) :
    (freqdecrypt.mf_candidates c).length % 10 = 0 ∧
    (freqdecrypt.mf_candidates c).length ≤ 20 := by
  unfold freqdecrypt.mf_candidates
  by_cases h : (freqdecrypt.count_letters c).2 = 0
  · rw [if_pos h]
    simp
  · rw [if_neg h]
    refine mfOuter_length c (freqdecrypt.most_common c) [] [] (most_common_nodup c) ?_ ?_ ?_
    · intro p hp
      exact absurd hp (List.not_mem_nil p)
    · simp
    · simp

/-! ### Claim C8: structure of the most-frequent-letter candidate list -/

/-- C8: for every ciphertext, the most-frequent-letter heuristic list has at
most 20 entries, contains no duplicate (cipher-letter, target-letter) pairs,
and every entry (cipher, target, shift, plaintext) satisfies
shift = (target - cipher) mod 26 with plaintext the text shifter applied to
the whole ciphertext with that shift. -/
theorem mf_candidates_entries_spec (c : List Nat) :
    (freqdecrypt.mf_candidates c).length ≤ 20 ∧
    ((freqdecrypt.mf_candidates c).map (fun x => (x.1, x.2.1))).Nodup ∧
    ∀ x ∈ freqdecrypt.mf_candidates c,
      x.2.2.1 = ((x.2.1 : ℤ) - (x.1 : ℤ)) % (26 : ℤ) ∧
      x.2.2.2 = freqdecrypt.caesar_shift c x.2.2.1 := by
  refine ⟨(mf_candidates_len_fact c).2, ?_, ?_⟩
  · unfold freqdecrypt.mf_candidates
    by_cases h : (freqdecrypt.count_letters c).2 = 0
    · rw [if_pos h]
      simp
    · rw [if_neg h]
      refine mfOuter_pairs_nodup c (freqdecrypt.most_common c) [] [] ?_ ?_
      · intro x hx
        exact absurd hx (List.not_mem_nil x)
      · simp
  · unfold freqdecrypt.mf_candidates
    by_cases h : (freqdecrypt.count_letters c).2 = 0
    · rw [if_pos h]
      intro x hx
      exact absurd hx (List.not_mem_nil x)
    · rw [if_neg h]
      refine mfOuter_entries c
        (fun x => x.2.2.1 = ((x.2.1 : ℤ) - (x.1 : ℤ)) % (26 : ℤ) ∧
          x.2.2.2 = freqdecrypt.caesar_shift c x.2.2.1)
        (fun cm t => ⟨rfl, rfl⟩) (freqdecrypt.most_common c) [] [] ?_
      intro x hx
      exact absurd hx (List.not_mem_nil x)

/-! ### Claim C9: where the 20-candidate cap truncates the list -/

/-- C9 counterexample: the claim asserts that for some ciphertext the outer
loop stops mid-iteration through one letter's 10 targets, leaving a candidate
list whose length is not a multiple of 10. This is false: the cap check only
runs after a letter's full inner loop, so no such ciphertext exists. -/
theorem mf_candidates_no_mid_letter_truncation :
    ¬ ∃ c : List Nat, (freqdecrypt.mf_candidates c).length % 10 ≠ 0 := by
  rintro ⟨c, hc⟩
  exact hc (mf_candidates_len_fact c).1

/-- C9 amended: the cap check `len(mf_candidates) >= 20` runs only after a
ciphertext letter's full set of 10 targets has been processed, so for every
ciphertext the candidate list is truncated at a whole-letter boundary: its
length is a multiple of 10 and never exceeds 20. -/
theorem mf_candidates_length_multiple_of_ten (c : List Nat) :
    (freqdecrypt.mf_candidates c).length % 10 = 0 ∧
    (freqdecrypt.mf_candidates c).length ≤ 20 :=
  mf_candidates_len_fact c
